import Mathlib

/-!
Shallow embedding of the agent layer of the GomokuAI repository
(src/core/interface/src/Agent.h and the second, unnamed version of the
same header), together with theorems checking the natural-language
specification against it.

The engines the agents delegate to (Board internals, Evaluator, the
Heuristic algorithms, MCTS, Minimax) are not part of the source tree;
where a claim needs them they are either taken as parameters (the agent
code only composes calls to them) or modelled from the specification,
as indicated by each doc comment.
-/

namespace Gomoku

/-- Board width, fixed at 15 (spec section 8: a 15 by 15 grid). -/
def WIDTH : Nat := 15

/-- Board height, fixed at 15. -/
def HEIGHT : Nat := 15

/-- Modelled from the spec: `Position` (Game.h is not in the source tree) is
a single cell addressable by (x, y) or equivalently by a flattened index
`id`; a sentinel value denotes "no position". -/
structure Position where
  id : Int
  deriving DecidableEq, Repr

/-- The (x, y) constructor: flattened row-major index. -/
def Position.mkXY (x y : Int) : Position := ⟨y * (WIDTH : Int) + x⟩

/-- Embeds a raw flat index (as written by Eigen maxCoeff) in a Position. -/
def Position.ofIdx (n : Nat) : Position := ⟨(n : Int)⟩

/-- The sentinel "no position" value; the unnamed source version spells it
`Position(-1)`, Agent.h spells it `Position::npos`. -/
def Position.npos : Position := ⟨-1⟩

/-- Modelled from the spec: the `Board` capability the agents consume —
grid state (derivable from the move list), current player (an integer,
one player the negation of the other), and the ordered move history. -/
structure Board where
  m_moveRecord : List Position
  m_curPlayer : Int
  deriving DecidableEq, Repr

/-- A cell is occupied iff some recorded move landed on it. -/
def Board.occupied (b : Board) (p : Position) : Bool :=
  b.m_moveRecord.any (fun q => q.id == p.id)

/-- A legal move: inside the 15 by 15 grid and on an empty cell. -/
def Board.legalMove (b : Board) (p : Position) : Bool :=
  decide (0 ≤ p.id) && decide (p.id < (WIDTH * HEIGHT : Nat)) && !(b.occupied p)

/-- The board has at least one legal move (the claims' reading of
"non-terminal"). -/
def Board.hasLegalMove (b : Board) : Bool :=
  (List.range (WIDTH * HEIGHT)).any (fun i => b.legalMove (Position.ofIdx i))

/-- Modelled from the spec: the `Evaluator` (PatternEvaluator; Pattern.h is
not in the source tree). Per section 3, LineState and PatternDistribution
are pure functions of the stones currently on the board ("must equal a
full rescan at all times"), so the internal state is represented by its
determining board state. -/
structure Evaluator where
  m_board : Board
  deriving DecidableEq, Repr

/-- The evaluator of a freshly constructed agent: empty board, first
player to move. -/
def Evaluator.initial : Evaluator := ⟨⟨[], 1⟩⟩

/-- Modelled from the spec (section 4.1): `applyMove` places a stone at the
position, records it, and advances the current player. -/
def Evaluator.applyMove (e : Evaluator) (p : Position) : Evaluator :=
  ⟨⟨e.m_board.m_moveRecord ++ [p], -e.m_board.m_curPlayer⟩⟩

/-- Modelled from the spec (section 4.1): `syncWithBoard` must produce the
internal state that replaying the board's moves in order would produce,
i.e. the state determined by the given board alone. -/
def Evaluator.syncWithBoard (_e : Evaluator) (b : Board) : Evaluator := ⟨b⟩

/-- Modelled from the spec (section 6): `reset` restores the initial state. -/
def Evaluator.reset (_e : Evaluator) : Evaluator := Evaluator.initial

/-- The board accessor `m_evaluator.board()`. -/
def Evaluator.board (e : Evaluator) : Board := e.m_board

/-- The Heuristic algorithms (algorithms/Heuristic.hpp is not in the source
tree).  The agent code only composes calls to them, so they are taken as
parameters: a per-cell probability vector from the evaluator state, the
decisive-move filter transforming such a vector, and the scalar value
estimate.  `EvaluationValue` is allowed to update the evaluator (the spec
permits internal caching), which only strengthens the theorems quantified
over these operations. -/
structure HeuristicOps where
  evaluationProbs : Evaluator → Int → List ℚ
  decisiveFilter : Evaluator → List ℚ → List ℚ
  evaluationValue : Evaluator → Int → ℚ × Evaluator

/-- `maxCoeff(&idx)` helper: fold over the remaining entries, replacing the
best index only on a strictly greater value, as Eigen does — so the first
maximal index is kept. -/
def maxCoeffAux : List ℚ → Nat → Nat → ℚ → Nat
  | [], _, bi, _ => bi
  | x :: xs, i, bi, bv =>
      if bv < x then maxCoeffAux xs (i + 1) i x else maxCoeffAux xs (i + 1) bi bv

/-- The index written by Eigen `v.maxCoeff(&idx)`: the first index holding
the maximal coefficient (0 on an empty vector). -/
def maxCoeffIdx : List ℚ → Nat
  | [] => 0
  | x :: xs => maxCoeffAux xs 1 0 x

/-- PatternEvalAgent state: the pattern evaluator and the stored move. -/
structure PatternEvalAgent where
  m_evaluator : Evaluator
  m_thisMove : Position
  deriving DecidableEq, Repr

/-- A freshly constructed PatternEvalAgent. -/
def PatternEvalAgent.initial : PatternEvalAgent :=
  ⟨Evaluator.initial, ⟨0⟩⟩

/-- `PatternEvalAgent::getAction`, Agent.h version (lines 152-163): on an
empty move record store and return the center; otherwise compute
`EvaluationProbs`, run `DecisiveFilter` over the result, call
`EvaluationValue` (result unused), and take the first argmax. Returns the
chosen position together with the updated agent state. -/
def PatternEvalAgent.getActionH (H : HeuristicOps) (a : PatternEvalAgent)
    (b : Board) : Position × PatternEvalAgent :=
  if b.m_moveRecord.isEmpty then
    let mv := Position.mkXY ((WIDTH : Int) / 2) ((HEIGHT : Int) / 2)
    (mv, { a with m_thisMove := mv })
  else
    let probs0 := H.evaluationProbs a.m_evaluator a.m_evaluator.board.m_curPlayer
    let probs := H.decisiveFilter a.m_evaluator probs0
    let ve := H.evaluationValue a.m_evaluator a.m_evaluator.board.m_curPlayer
    let mv := Position.ofIdx (maxCoeffIdx probs)
    (mv, { m_evaluator := ve.2, m_thisMove := mv })

/-- `PatternEvalAgent::getAction`, unnamed-source version (lines 109-119):
identical except that `EvaluationValue` is not called. -/
def PatternEvalAgent.getActionU (H : HeuristicOps) (a : PatternEvalAgent)
    (b : Board) : Position × PatternEvalAgent :=
  if b.m_moveRecord.isEmpty then
    let mv := Position.mkXY ((WIDTH : Int) / 2) ((HEIGHT : Int) / 2)
    (mv, { a with m_thisMove := mv })
  else
    let probs0 := H.evaluationProbs a.m_evaluator a.m_evaluator.board.m_curPlayer
    let probs := H.decisiveFilter a.m_evaluator probs0
    let mv := Position.ofIdx (maxCoeffIdx probs)
    (mv, { m_evaluator := a.m_evaluator, m_thisMove := mv })

/-- The snapshot `patternMessage` reads. Modelled from the spec: the
per-pattern counts are a derived function of the board state (section 3,
PatternDistribution invariant), so the snapshot is represented by its
determining board state. -/
def PatternEvalAgent.patternMessage (e : Evaluator) : Board := e.m_board

/-- `PatternEvalAgent::debugMessage` (Agent.h lines 165-171, identical in
the unnamed version): take a snapshot, apply the stored move to the
evaluator, take another snapshot; returns the message data together with
the updated agent. -/
def PatternEvalAgent.debugMessage (a : PatternEvalAgent) :
    (Board × Board) × PatternEvalAgent :=
  let before := PatternEvalAgent.patternMessage a.m_evaluator
  let e := a.m_evaluator.applyMove a.m_thisMove
  let current := PatternEvalAgent.patternMessage e
  ((before, current), { a with m_evaluator := e })

/-- `PatternEvalAgent::syncWithBoard` (Agent.h lines 173-175). -/
def PatternEvalAgent.syncWithBoard (a : PatternEvalAgent) (b : Board) :
    PatternEvalAgent :=
  { a with m_evaluator := a.m_evaluator.syncWithBoard b }

/-- `PatternEvalAgent::reset` (Agent.h lines 177-179). -/
def PatternEvalAgent.reset (a : PatternEvalAgent) : PatternEvalAgent :=
  { a with m_evaluator := a.m_evaluator.reset }

/-- `HumanAgent` state, Agent.h version (lines 42-83): evaluator, the last
pair read from the console, the cached probability vector and the output
flag. -/
structure HumanAgent where
  m_evaluator : Evaluator
  m_move : Int × Int
  m_probs : List ℚ
  c_output : Bool
  deriving DecidableEq, Repr

/-- `HumanAgent::getAction`, Agent.h version (lines 52-58): store the pair
read from the console (modelled as the explicit `input` argument), sync
the evaluator with the board, and return the pair as a position — the
input is not validated against the board. -/
def HumanAgent.getActionH (input : Int × Int) (a : HumanAgent) (b : Board) :
    Position × HumanAgent :=
  (Position.mkXY input.1 input.2,
   { a with m_move := input, m_evaluator := a.m_evaluator.syncWithBoard b })

/-- `HumanAgent::getAction`, unnamed-source version (lines 38-46): sync the
evaluator, apply the read move to it, and return the pair as a position —
again unvalidated. -/
def HumanAgent.getActionU (input : Int × Int) (a : HumanAgent) (b : Board) :
    Position × HumanAgent :=
  let e := (a.m_evaluator.syncWithBoard b).applyMove (Position.mkXY input.1 input.2)
  (Position.mkXY input.1 input.2, { a with m_move := input, m_evaluator := e })

/-- `HumanAgent::debugMessage`, Agent.h version (lines 60-77): when output
is enabled, compute and print the filtered probabilities, apply the stored
move to the evaluator, and compute them again. -/
def HumanAgent.debugMessage (H : HeuristicOps) (a : HumanAgent) : HumanAgent :=
  if a.c_output then
    let _p1 := H.decisiveFilter a.m_evaluator
      (H.evaluationProbs a.m_evaluator a.m_evaluator.board.m_curPlayer)
    let e := a.m_evaluator.applyMove (Position.mkXY a.m_move.1 a.m_move.2)
    let p2 := H.decisiveFilter e (H.evaluationProbs e e.board.m_curPlayer)
    { a with m_evaluator := e, m_probs := p2 }
  else a

/-- `RandomAgent::getAction` (Agent.h lines 92-94): delegate to the board's
random-legal-move query.  `Board::getRandomMove` is external (spec section
2), so it is a parameter. -/
def RandomAgent.getAction (rand : Board → Position) (b : Board) : Position :=
  rand b

/-- Statistics of one root child of the search tree (spec section 3,
SearchNode): the move that leads to it as a flat index, its visit count,
and its mean backed-up value. -/
structure Child where
  mid : Nat
  nVisit : Nat
  qMean : ℚ
  deriving DecidableEq, Repr

/-- The probability the spec-modelled `evalState` assigns to a child: an
encoding of the lexicographic key (visit count, then mean value) as a
single rational, strictly monotone in that order whenever mean values lie
in [-1, 1], and strictly positive. -/
def Child.key (c : Child) : ℚ := (c.nVisit : ℚ) + (c.qMean + 3) / 8

/-- Modelled from the spec: the `MCTS` engine object (MCTS.h is not in the
source tree).  It carries the construction arguments, the diagnostic
iteration count, and the root-child statistics accumulated by the
time-boxed search (the iteration loop itself is abstracted; `children`
are the statistics at the moment the budget expires). -/
structure MCTS where
  c_duration : Nat
  m_policy : Nat
  m_iterations : Nat
  rootMove : Position
  rootPlayer : Int
  children : List Child
  deriving DecidableEq, Repr

/-- The `MCTS(duration, last_action, player, policy)` constructor, modelled
from the spec (section 4.3): a fresh engine whose root is an unexpanded
node carrying the given preceding move and player. -/
def MCTS.construct (dur : Nat) (lastAction : Position) (player : Int)
    (policy : Nat) : MCTS :=
  ⟨dur, policy, 0, lastAction, player, []⟩

/-- Modelled from the spec (section 4.3): `evalState` returns, after the
budget expires, a state value and the per-cell distribution over the root
children, ranking them by visit count and tie-breaking by mean backed-up
value; cells that are no child carry zero mass. -/
def MCTS.evalState (m : MCTS) (_b : Board) : ℚ × List ℚ :=
  (0, (List.range (WIDTH * HEIGHT)).map (fun i =>
    match m.children.find? (fun c => c.mid == i) with
    | some c => c.key
    | none => 0))

/-- Modelled from the spec (section 4.3): `MCTS::reset` discards the entire
tree; the next sync rebuilds from scratch. -/
def MCTS.resetEngine (m : MCTS) : MCTS :=
  { m with children := [], m_iterations := 0 }

/-- Modelled from the spec (section 4.3): `MCTS::syncWithBoard` promotes
the matching child or rebuilds the root at the board's last move; the
retained subtree statistics are abstracted — only the fields the claims
inspect are tracked. -/
def MCTS.syncEngine (m : MCTS) (b : Board) : MCTS :=
  { m with
    rootMove := if b.m_moveRecord.isEmpty then Position.npos
                else b.m_moveRecord.getLastD Position.npos,
    rootPlayer := -b.m_curPlayer }

/-- `MCTSAgent` state (Agent.h lines 98-141): the engine pointer (None
models the null pointer), the configured duration and the policy pointer. -/
structure MCTSAgent where
  c_duration : Nat
  m_policy : Nat
  m_mcts : Option MCTS
  deriving DecidableEq, Repr

/-- The `MCTSAgent(durations, policy)` constructor: the engine pointer
starts null. -/
def MCTSAgent.construct (dur : Nat) (policy : Nat) : MCTSAgent :=
  ⟨dur, policy, none⟩

/-- `MCTSAgent::syncWithBoard` (Agent.h lines 124-131): on a null engine,
construct a fresh one from the board's last recorded move (the sentinel on
an empty history) and the negated current player; otherwise delegate to
the engine. -/
def MCTSAgent.syncWithBoard (a : MCTSAgent) (b : Board) : MCTSAgent :=
  match a.m_mcts with
  | none =>
      let lastAction := if b.m_moveRecord.isEmpty then Position.npos
                        else b.m_moveRecord.getLastD Position.npos
      { a with m_mcts := some (MCTS.construct a.c_duration lastAction
                               (-b.m_curPlayer) a.m_policy) }
  | some m => { a with m_mcts := some (m.syncEngine b) }

/-- `MCTSAgent::getAction` (Agent.h lines 107-115): evaluate the state and
take the first argmax of the action distribution; None models the null
dereference of an engine never synced. -/
def MCTSAgent.getAction (a : MCTSAgent) (b : Board) : Option Position :=
  a.m_mcts.map (fun m => Position.ofIdx (maxCoeffIdx (m.evalState b).2))

/-- `MCTSAgent::reset` (Agent.h lines 133-135): delegates to the engine;
None models the null dereference. -/
def MCTSAgent.reset (a : MCTSAgent) : Option MCTSAgent :=
  a.m_mcts.map (fun m => { a with m_mcts := some m.resetEngine })

/-- `MCTSAgent::debugMessage` (Agent.h lines 117-122): reads the iteration
count and duration from the engine; None models the null dereference. -/
def MCTSAgent.debugMessage (a : MCTSAgent) : Option (Nat × Nat) :=
  a.m_mcts.map (fun m => (m.m_iterations, m.c_duration))

/-- One driver call on an MCTSAgent. -/
inductive MCTSOp where
  | syncOp (b : Board)
  | getOp (b : Board)
  | resetOp
  | debugOp
  deriving DecidableEq, Repr

/-- One step of the driver loop; None models hitting the null-engine
dereference in getAction, reset or debugMessage. -/
def MCTSAgent.step (a : MCTSAgent) : MCTSOp → Option MCTSAgent
  | MCTSOp.syncOp b => some (a.syncWithBoard b)
  | MCTSOp.getOp b => (a.getAction b).map (fun _ => a)
  | MCTSOp.resetOp => a.reset
  | MCTSOp.debugOp => (a.debugMessage).map (fun _ => a)

/-- Run a sequence of driver calls, failing as soon as a null dereference
occurs. -/
def MCTSAgent.runOps (a : MCTSAgent) : List MCTSOp → Option MCTSAgent
  | [] => some a
  | op :: ops => (a.step op).bind (fun a2 => a2.runOps ops)

/-- Modelled from the spec: the `Minimax` engine object (Minimax.h is not
in the source tree): construction arguments plus an abstract tree state
(0 in a fresh engine). -/
structure Minimax where
  c_depth : Int
  rootMove : Position
  rootPlayer : Int
  tree : Nat
  deriving DecidableEq, Repr

/-- The `Minimax(depth, last_action, player)` constructor, modelled from the
spec: a fresh engine with an empty tree. -/
def Minimax.construct (depth : Int) (lastAction : Position) (player : Int) :
    Minimax :=
  ⟨depth, lastAction, player, 0⟩

/-- Modelled from the spec (section 4.4): `Minimax::syncWithBoard` follows
the same root-promotion contract as MCTS. -/
def Minimax.syncEngine (m : Minimax) (b : Board) : Minimax :=
  { m with
    rootMove := if b.m_moveRecord.isEmpty then Position.npos
                else b.m_moveRecord.getLastD Position.npos,
    rootPlayer := -b.m_curPlayer }

/-- `MinimaxAgent` state (Agent.h lines 200-236): engine pointer (None is
null) and configured depth. -/
structure MinimaxAgent where
  c_depth : Int
  m_minimax : Option Minimax
  deriving DecidableEq, Repr

/-- The `MinimaxAgent(depth)` constructor: the engine pointer starts null. -/
def MinimaxAgent.construct (depth : Int) : MinimaxAgent := ⟨depth, none⟩

/-- `MinimaxAgent::syncWithBoard` (Agent.h lines 218-227): on a null engine,
construct a fresh one from the last recorded move (`Position(-1)` on an
empty history) and the negated current player; otherwise delegate. -/
def MinimaxAgent.syncWithBoard (a : MinimaxAgent) (b : Board) : MinimaxAgent :=
  match a.m_minimax with
  | none =>
      let lastAction := if b.m_moveRecord.isEmpty then Position.npos
                        else b.m_moveRecord.getLastD Position.npos
      { a with m_minimax := some (Minimax.construct a.c_depth lastAction
                                  (-b.m_curPlayer)) }
  | some m => { a with m_minimax := some (m.syncEngine b) }

/-- `MinimaxAgent::getAction` (Agent.h lines 210-212): delegates to the
engine (`Minimax::getAction` is not in the source tree, so the engine's
selection function is a parameter); None models the null dereference. -/
def MinimaxAgent.getAction (sel : Minimax → Board → Position)
    (a : MinimaxAgent) (b : Board) : Option Position :=
  a.m_minimax.map (fun m => sel m b)

/-- `MinimaxAgent::reset` (Agent.h lines 229-231): the body is commented
out — the call does nothing. -/
def MinimaxAgent.reset (a : MinimaxAgent) : MinimaxAgent := a

/-- A trivial instantiation of the heuristic operations, used to evaluate
theorems on concrete inputs. -/
def sampleOps : HeuristicOps :=
  ⟨fun _ _ => [1, 0], fun _ p => p, fun e _ => (0, e)⟩

/-- A heuristic instantiation whose probabilities depend on the parity of
the evaluator's move count, used to exhibit that mutating the evaluator
changes a later selection. -/
def probeOps : HeuristicOps :=
  ⟨fun e _ => if e.m_board.m_moveRecord.length % 2 = 0 then [1, 0] else [0, 1],
   fun _ p => p, fun e _ => (0, e)⟩

/-! ## Theorems -/

/-- C2: for every board whose move history is empty, both source versions of
`PatternEvalAgent::getAction` return the center cell (WIDTH/2, HEIGHT/2) of
the 15 by 15 grid, leave the evaluator untouched, and do not consult the
heuristic operations at all (the result is the same for any two
instantiations of them). -/
theorem C2_empty_board_center (H H2 : HeuristicOps) (a : PatternEvalAgent)
    (b : Board) (h : b.m_moveRecord = []) :
    (PatternEvalAgent.getActionH H a b).1
        = Position.mkXY ((WIDTH : Int) / 2) ((HEIGHT : Int) / 2) ∧
    (PatternEvalAgent.getActionU H a b).1
        = Position.mkXY ((WIDTH : Int) / 2) ((HEIGHT : Int) / 2) ∧
    ((PatternEvalAgent.getActionH H a b).2).m_evaluator = a.m_evaluator ∧
    PatternEvalAgent.getActionH H a b = PatternEvalAgent.getActionH H2 a b := by
  simp [PatternEvalAgent.getActionH, PatternEvalAgent.getActionU, h]

/-- Witness for C2 at a concrete empty board. -/
theorem C2_witness :
    (PatternEvalAgent.getActionH sampleOps PatternEvalAgent.initial ⟨[], 1⟩).1
      = Position.mkXY ((WIDTH : Int) / 2) ((HEIGHT : Int) / 2) :=
  (C2_empty_board_center sampleOps probeOps PatternEvalAgent.initial ⟨[], 1⟩ rfl).1

/-- C3: whenever the pattern agent computes its move distribution (the
non-empty-history branch), the vector from which the move is selected is
exactly `DecisiveFilter` applied to the result of `EvaluationProbs`, in
both source versions. -/
theorem C3_filter_after_probs (H : HeuristicOps) (a : PatternEvalAgent)
    (b : Board) (h : b.m_moveRecord ≠ []) :
    (PatternEvalAgent.getActionH H a b).1 =
      Position.ofIdx (maxCoeffIdx (H.decisiveFilter a.m_evaluator
        (H.evaluationProbs a.m_evaluator a.m_evaluator.board.m_curPlayer))) ∧
    (PatternEvalAgent.getActionU H a b).1 =
      Position.ofIdx (maxCoeffIdx (H.decisiveFilter a.m_evaluator
        (H.evaluationProbs a.m_evaluator a.m_evaluator.board.m_curPlayer))) := by
  have hne : b.m_moveRecord.isEmpty = false := by
    simp [List.isEmpty_iff, h]
  simp [PatternEvalAgent.getActionH, PatternEvalAgent.getActionU, hne]

/-- Witness for C3 at a concrete one-move board. -/
theorem C3_witness :
    (PatternEvalAgent.getActionH sampleOps PatternEvalAgent.initial
        ⟨[⟨5⟩], -1⟩).1 =
      Position.ofIdx (maxCoeffIdx (sampleOps.decisiveFilter
        PatternEvalAgent.initial.m_evaluator
        (sampleOps.evaluationProbs PatternEvalAgent.initial.m_evaluator
          PatternEvalAgent.initial.m_evaluator.board.m_curPlayer))) :=
  (C3_filter_after_probs sampleOps PatternEvalAgent.initial ⟨[⟨5⟩], -1⟩
    (by simp)).1

/-- C8: move selection is deterministic — both source versions of
`PatternEvalAgent::getAction` return the same move from identical
evaluator state and identical board (the stored previous move is
irrelevant to the selection; ties are resolved by the first-maximal-index
rule of `maxCoeffIdx`, not by randomness). -/
theorem C8_deterministic_selection (H : HeuristicOps)
    (a1 a2 : PatternEvalAgent) (b1 b2 : Board)
    (he : a1.m_evaluator = a2.m_evaluator) (hb : b1 = b2) :
    (PatternEvalAgent.getActionH H a1 b1).1
      = (PatternEvalAgent.getActionH H a2 b2).1 ∧
    (PatternEvalAgent.getActionU H a1 b1).1
      = (PatternEvalAgent.getActionU H a2 b2).1 := by
  subst hb
  constructor <;>
    simp [PatternEvalAgent.getActionH, PatternEvalAgent.getActionU, he]

/-- Witness for C8 at concrete agents differing only in the stored move. -/
theorem C8_witness :
    (PatternEvalAgent.getActionH sampleOps ⟨Evaluator.initial, ⟨3⟩⟩
        ⟨[⟨5⟩], -1⟩).1
      = (PatternEvalAgent.getActionH sampleOps ⟨Evaluator.initial, ⟨9⟩⟩
        ⟨[⟨5⟩], -1⟩).1 :=
  (C8_deterministic_selection sampleOps ⟨Evaluator.initial, ⟨3⟩⟩
    ⟨Evaluator.initial, ⟨9⟩⟩ ⟨[⟨5⟩], -1⟩ ⟨[⟨5⟩], -1⟩ rfl rfl).1

/-- C10: the two source versions of `PatternEvalAgent::getAction` select
the same move from the same evaluator state and board — the extra
`EvaluationValue` call of the Agent.h version, whose result is discarded,
does not change the returned position (this holds even if
`EvaluationValue` were allowed to update the evaluator, since the
selection reads only the already-computed probability vector). -/
theorem C10_versions_select_same_move (H : HeuristicOps)
    (a : PatternEvalAgent) (b : Board) :
    (PatternEvalAgent.getActionH H a b).1
      = (PatternEvalAgent.getActionU H a b).1 ∧
    ((PatternEvalAgent.getActionH H a b).2).m_thisMove
      = ((PatternEvalAgent.getActionU H a b).2).m_thisMove := by
  by_cases h : b.m_moveRecord.isEmpty <;>
    simp [PatternEvalAgent.getActionH, PatternEvalAgent.getActionU, h]

/-- C1 fails as stated: `PatternEvalAgent::debugMessage` applies the stored
move to the evaluator, so at this concrete agent the internal state
differs after the call and a later `getAction` on the same board returns a
different move. -/
theorem C1_counterexample :
    ((PatternEvalAgent.debugMessage ⟨Evaluator.initial, ⟨5⟩⟩).2
        ≠ (⟨Evaluator.initial, ⟨5⟩⟩ : PatternEvalAgent)) ∧
    (PatternEvalAgent.getActionH probeOps
        (PatternEvalAgent.debugMessage ⟨Evaluator.initial, ⟨5⟩⟩).2
        ⟨[⟨5⟩], -1⟩).1
      ≠ (PatternEvalAgent.getActionH probeOps ⟨Evaluator.initial, ⟨5⟩⟩
        ⟨[⟨5⟩], -1⟩).1 := by
  constructor <;> decide

/-- C1 amended: `MCTSAgent::debugMessage` only reads engine statistics and
leaves the agent unchanged, but `PatternEvalAgent::debugMessage` applies
the stored move to its evaluator (changing internal state, so an
immediately following `getAction` may differ); after the next
`syncWithBoard` with the authoritative board, however, the agent state is
identical whether or not `debugMessage` was called in between. -/
theorem C1_debug_message_effect (a : MCTSAgent) (m : MCTS)
    (hm : a.m_mcts = some m) (p : PatternEvalAgent) (b : Board) :
    MCTSAgent.step a MCTSOp.debugOp = some a ∧
    ((PatternEvalAgent.debugMessage p).2).m_evaluator
      = p.m_evaluator.applyMove p.m_thisMove ∧
    PatternEvalAgent.syncWithBoard (PatternEvalAgent.debugMessage p).2 b
      = PatternEvalAgent.syncWithBoard p b := by
  refine ⟨?_, rfl, rfl⟩
  simp [MCTSAgent.step, MCTSAgent.debugMessage, hm]

/-- Witness for the amended C1 at a concrete synced MCTS agent. -/
theorem C1_witness :
    MCTSAgent.step ⟨100, 0, some (MCTS.construct 100 ⟨5⟩ 1 0)⟩
        MCTSOp.debugOp
      = some ⟨100, 0, some (MCTS.construct 100 ⟨5⟩ 1 0)⟩ :=
  (C1_debug_message_effect ⟨100, 0, some (MCTS.construct 100 ⟨5⟩ 1 0)⟩
    (MCTS.construct 100 ⟨5⟩ 1 0) rfl ⟨Evaluator.initial, ⟨5⟩⟩ ⟨[], 1⟩).1

/-- C5: on the first call (null engine pointer), `MCTSAgent::syncWithBoard`
and `MinimaxAgent::syncWithBoard` construct a fresh engine from the
board's last recorded move and the negated current player (which
determines the player to move next), the sentinel `Position::npos` /
`Position(-1)` standing in for the last move when the history is empty;
the call always succeeds (the engine pointer is non-null afterwards). -/
theorem C5_first_sync_constructs_engine (a : MCTSAgent) (x : MinimaxAgent)
    (b : Board) (ha : a.m_mcts = none) (hx : x.m_minimax = none) :
    (a.syncWithBoard b).m_mcts
      = some (MCTS.construct a.c_duration
          (if b.m_moveRecord.isEmpty then Position.npos
           else b.m_moveRecord.getLastD Position.npos)
          (-b.m_curPlayer) a.m_policy) ∧
    (b.m_moveRecord = [] → (a.syncWithBoard b).m_mcts
      = some (MCTS.construct a.c_duration Position.npos (-b.m_curPlayer)
          a.m_policy)) ∧
    (∀ m, (a.syncWithBoard b).m_mcts = some m → -m.rootPlayer = b.m_curPlayer) ∧
    (x.syncWithBoard b).m_minimax
      = some (Minimax.construct x.c_depth
          (if b.m_moveRecord.isEmpty then Position.npos
           else b.m_moveRecord.getLastD Position.npos) (-b.m_curPlayer)) ∧
    (b.m_moveRecord = [] → (x.syncWithBoard b).m_minimax
      = some (Minimax.construct x.c_depth Position.npos (-b.m_curPlayer))) := by
  refine ⟨?_, ?_, ?_, ?_, ?_⟩
  · simp [MCTSAgent.syncWithBoard, ha]
  · intro hrec
    simp [MCTSAgent.syncWithBoard, ha, hrec]
  · intro m hmeq
    simp [MCTSAgent.syncWithBoard, ha] at hmeq
    subst hmeq
    simp [MCTS.construct]
  · simp [MinimaxAgent.syncWithBoard, hx]
  · intro hrec
    simp [MinimaxAgent.syncWithBoard, hx, hrec]

/-- Witness for C5 at concrete fresh agents and an empty board. -/
theorem C5_witness :
    ((MCTSAgent.construct 100 0).syncWithBoard ⟨[], 1⟩).m_mcts
      = some (MCTS.construct 100 Position.npos (-1) 0) :=
  ((C5_first_sync_constructs_engine (MCTSAgent.construct 100 0)
      (MinimaxAgent.construct 10) ⟨[], 1⟩ rfl rfl).2.1) rfl

/-- C6 fails as stated: `MinimaxAgent::reset` has a commented-out body and
discards nothing — at this concrete agent the pre-reset engine, holding a
non-initial tree, survives the call unchanged. -/
theorem C6_counterexample :
    MinimaxAgent.reset ⟨10, some ⟨10, ⟨3⟩, 1, 5⟩⟩
        = (⟨10, some ⟨10, ⟨3⟩, 1, 5⟩⟩ : MinimaxAgent) ∧
    (⟨10, some ⟨10, ⟨3⟩, 1, 5⟩⟩ : MinimaxAgent).m_minimax ≠ none ∧
    (⟨10, ⟨3⟩, 1, 5⟩ : Minimax).tree ≠ (Minimax.construct 10 ⟨3⟩ 1).tree := by
  refine ⟨rfl, by decide, by decide⟩

/-- C6 amended: `PatternEvalAgent::reset` restores the evaluator to its
initial state and `MCTSAgent::reset` discards the engine's tree (keeping
the non-null engine object), but `MinimaxAgent::reset` is a no-op — all
pre-reset search state of the minimax engine is retained. -/
theorem C6_reset_behavior (p : PatternEvalAgent) (a : MCTSAgent) (m : MCTS)
    (hm : a.m_mcts = some m) (x : MinimaxAgent) :
    (PatternEvalAgent.reset p).m_evaluator = Evaluator.initial ∧
    MCTSAgent.reset a = some { a with m_mcts := some m.resetEngine } ∧
    m.resetEngine.children = [] ∧
    MinimaxAgent.reset x = x := by
  refine ⟨rfl, ?_, rfl, rfl⟩
  simp [MCTSAgent.reset, hm]

/-- Witness for the amended C6 at a concrete synced MCTS agent. -/
theorem C6_witness :
    MCTSAgent.reset ⟨100, 0, some ⟨100, 0, 7, ⟨3⟩, 1, [⟨4, 2, 0⟩]⟩⟩
      = some ⟨100, 0, some ⟨100, 0, 0, ⟨3⟩, 1, []⟩⟩ :=
  (C6_reset_behavior ⟨Evaluator.initial, ⟨0⟩⟩
    ⟨100, 0, some ⟨100, 0, 7, ⟨3⟩, 1, [⟨4, 2, 0⟩]⟩⟩
    ⟨100, 0, 7, ⟨3⟩, 1, [⟨4, 2, 0⟩]⟩ rfl (MinimaxAgent.construct 10)).2.1

/-- Helper: every driver call on an MCTSAgent whose engine pointer is
non-null succeeds and keeps the pointer non-null. -/
theorem MCTSAgent.step_isSome (a : MCTSAgent) (op : MCTSOp)
    (h : a.m_mcts.isSome) :
    ∃ a2, a.step op = some a2 ∧ a2.m_mcts.isSome := by
  obtain ⟨m, hm⟩ := Option.isSome_iff_exists.mp h
  cases op with
  | syncOp b =>
      refine ⟨a.syncWithBoard b, rfl, ?_⟩
      simp [MCTSAgent.syncWithBoard, hm]
  | getOp b =>
      exact ⟨a, by simp [MCTSAgent.step, MCTSAgent.getAction, hm], h⟩
  | resetOp =>
      refine ⟨{ a with m_mcts := some m.resetEngine }, ?_, rfl⟩
      simp [MCTSAgent.step, MCTSAgent.reset, hm]
  | debugOp =>
      exact ⟨a, by simp [MCTSAgent.step, MCTSAgent.debugMessage, hm], h⟩

/-- Helper: a whole driver sequence succeeds from a non-null engine. -/
theorem MCTSAgent.runOps_isSome (ops : List MCTSOp) :
    ∀ a : MCTSAgent, a.m_mcts.isSome →
      ∃ a2, a.runOps ops = some a2 ∧ a2.m_mcts.isSome := by
  induction ops with
  | nil => exact fun a h => ⟨a, rfl, h⟩
  | cons op ops ih =>
      intro a h
      obtain ⟨a2, hstep, h2⟩ := MCTSAgent.step_isSome a op h
      obtain ⟨a3, hrun, h3⟩ := ih a2 h2
      exact ⟨a3, by simp [MCTSAgent.runOps, hstep, hrun], h3⟩

/-- C9: on a freshly constructed MCTSAgent (null engine pointer),
`getAction`, `reset` and `debugMessage` all hit the null-engine
dereference (modelled as `none`), as does `MinimaxAgent::getAction`; once
`syncWithBoard` has been called, any subsequent sequence of driver calls
succeeds — the null-engine branch is unreachable. -/
theorem C9_engine_null_safety :
    (∀ (d pol : Nat) (b : Board),
        (MCTSAgent.construct d pol).getAction b = none) ∧
    (∀ d pol : Nat, (MCTSAgent.construct d pol).reset = none) ∧
    (∀ d pol : Nat, (MCTSAgent.construct d pol).debugMessage = none) ∧
    (∀ (dep : Int) (sel : Minimax → Board → Position) (b : Board),
        MinimaxAgent.getAction sel (MinimaxAgent.construct dep) b = none) ∧
    (∀ (d pol : Nat) (b : Board) (ops : List MCTSOp),
        ∃ a2, (MCTSAgent.construct d pol).runOps (MCTSOp.syncOp b :: ops)
          = some a2) := by
  refine ⟨fun d pol b => rfl, fun d pol => rfl, fun d pol => rfl,
    fun dep sel b => rfl, fun d pol b ops => ?_⟩
  have h1 : ((MCTSAgent.construct d pol).syncWithBoard b).m_mcts.isSome := by
    simp [MCTSAgent.syncWithBoard, MCTSAgent.construct]
  obtain ⟨a2, hrun, _⟩ :=
    MCTSAgent.runOps_isSome ops ((MCTSAgent.construct d pol).syncWithBoard b) h1
  exact ⟨a2, by simp [MCTSAgent.runOps, MCTSAgent.step, hrun]⟩

/-- Helper: the maxCoeff fold returns the carried best index when no
remaining entry strictly exceeds the carried best value. -/
theorem maxCoeffAux_all_le (xs : List ℚ) :
    ∀ (i bi : Nat) (bv : ℚ), (∀ x ∈ xs, x ≤ bv) → maxCoeffAux xs i bi bv = bi := by
  induction xs with
  | nil => intro i bi bv _; rfl
  | cons x xs ih =>
      intro i bi bv h
      have hx : ¬ bv < x := not_lt.mpr (h x (List.mem_cons_self x xs))
      simp only [maxCoeffAux, hx, if_false]
      exact ih (i + 1) bi bv (fun y hy => h y (List.mem_cons_of_mem x hy))

/-- Helper: when some remaining entry strictly exceeds the carried best
value, the maxCoeff fold lands on the first maximal remaining entry. -/
theorem maxCoeffAux_exists (xs : List ℚ) :
    ∀ (i bi : Nat) (bv : ℚ), (∃ x ∈ xs, bv < x) →
      ∃ k, k < xs.length ∧ maxCoeffAux xs i bi bv = i + k ∧
        bv < xs.getD k 0 ∧
        (∀ j, j < xs.length → xs.getD j 0 ≤ xs.getD k 0) ∧
        (∀ j, j < k → xs.getD j 0 < xs.getD k 0) := by
  induction xs with
  | nil =>
      rintro i bi bv ⟨x, hx, -⟩
      simp at hx
  | cons x xs ih =>
      intro i bi bv hex
      by_cases hbx : bv < x
      · by_cases hall : ∀ y ∈ xs, y ≤ x
        · refine ⟨0, by simp, ?_, by simpa using hbx, ?_, by omega⟩
          · simp only [maxCoeffAux, hbx, if_true, Nat.add_zero]
            exact maxCoeffAux_all_le xs (i + 1) i x hall
          · intro j hj
            match j with
            | 0 => simp
            | j + 1 =>
                simp only [List.getD_cons_succ, List.getD_cons_zero]
                have hjlen : j < xs.length := by
                  simpa [Nat.succ_lt_succ_iff] using hj
                rw [List.getD_eq_getElem xs 0 hjlen]
                exact hall _ (List.getElem_mem hjlen)
        · push_neg at hall
          obtain ⟨k, hk, heq, hlt, hb, hs⟩ := ih (i + 1) i x hall
          refine ⟨k + 1, by simpa using Nat.succ_lt_succ hk, ?_, ?_, ?_, ?_⟩
          · simp only [maxCoeffAux, hbx, if_true, heq]
            omega
          · simpa using lt_trans hbx hlt
          · intro j hj
            match j with
            | 0 => simpa using le_of_lt hlt
            | j + 1 =>
                simp only [List.getD_cons_succ]
                exact hb j (by simpa [Nat.succ_lt_succ_iff] using hj)
          · intro j hj
            match j with
            | 0 => simpa using hlt
            | j + 1 =>
                simp only [List.getD_cons_succ]
                exact hs j (by omega)
      · obtain ⟨y, hy, hby⟩ := hex
        have hymem : y ∈ xs := by
          rcases List.mem_cons.mp hy with rfl | h2
          · exact absurd hby hbx
          · exact h2
        obtain ⟨k, hk, heq, hlt, hb, hs⟩ := ih (i + 1) bi bv ⟨y, hymem, hby⟩
        have hxle : x ≤ bv := not_lt.mp hbx
        refine ⟨k + 1, by simpa using Nat.succ_lt_succ hk, ?_, ?_, ?_, ?_⟩
        · simp only [maxCoeffAux, hbx, if_false, heq]
          omega
        · simpa using hlt
        · intro j hj
          match j with
          | 0 => simpa using le_of_lt (lt_of_le_of_lt hxle hlt)
          | j + 1 =>
              simp only [List.getD_cons_succ]
              exact hb j (by simpa [Nat.succ_lt_succ_iff] using hj)
        · intro j hj
          match j with
          | 0 => simpa using lt_of_le_of_lt hxle hlt
          | j + 1 =>
              simp only [List.getD_cons_succ]
              exact hs j (by omega)

/-- Helper: `maxCoeffIdx` returns the first index of the maximal entry of a
non-empty vector — every entry is bounded by the entry there, and every
earlier entry is strictly smaller. -/
theorem maxCoeffIdx_spec (l : List ℚ) (hne : l ≠ []) :
    maxCoeffIdx l < l.length ∧
    (∀ j, j < l.length → l.getD j 0 ≤ l.getD (maxCoeffIdx l) 0) ∧
    (∀ j, j < maxCoeffIdx l → l.getD j 0 < l.getD (maxCoeffIdx l) 0) := by
  match l with
  | [] => exact absurd rfl hne
  | x :: xs =>
      by_cases hall : ∀ y ∈ xs, y ≤ x
      · have h0 : maxCoeffIdx (x :: xs) = 0 :=
          maxCoeffAux_all_le xs 1 0 x hall
        rw [h0]
        refine ⟨by simp, ?_, by omega⟩
        intro j hj
        match j with
        | 0 => simp
        | j + 1 =>
            simp only [List.getD_cons_succ, List.getD_cons_zero]
            have hjlen : j < xs.length := by
              simpa [Nat.succ_lt_succ_iff] using hj
            rw [List.getD_eq_getElem xs 0 hjlen]
            exact hall _ (List.getElem_mem hjlen)
      · push_neg at hall
        obtain ⟨k, hk, heq, hlt, hb, hs⟩ := maxCoeffAux_exists xs 1 0 x hall
        have hidx : maxCoeffIdx (x :: xs) = k + 1 := by
          show maxCoeffAux xs 1 0 x = k + 1
          omega
        rw [hidx]
        refine ⟨by simpa using Nat.succ_lt_succ hk, ?_, ?_⟩
        · intro j hj
          match j with
          | 0 => simpa using le_of_lt hlt
          | j + 1 =>
              simp only [List.getD_cons_succ]
              exact hb j (by simpa [Nat.succ_lt_succ_iff] using hj)
        · intro j hj
          match j with
          | 0 => simpa using hlt
          | j + 1 =>
              simp only [List.getD_cons_succ]
              exact hs j (by omega)

/-- Helper: the spec-modelled `evalState` distribution covers one cell per
board index. -/
theorem evalState_length (m : MCTS) (b : Board) :
    (m.evalState b).2.length = WIDTH * HEIGHT := by
  simp [MCTS.evalState]

/-- Helper: the mass `evalState` puts on cell `i` is the key of the root
child whose move is `i`, or zero when no child moves there. -/
theorem evalState_getD (m : MCTS) (b : Board) (i : Nat)
    (hi : i < WIDTH * HEIGHT) :
    (m.evalState b).2.getD i 0
      = (Option.map Child.key (m.children.find? (fun c => c.mid == i))).getD 0 := by
  simp only [MCTS.evalState]
  rw [List.getD_eq_getElem _ 0 (by simpa using hi)]
  rw [List.getElem_map, List.getElem_range]
  rcases hfd : m.children.find? (fun c => c.mid == i) with _ | c <;>
    rw [hfd] <;> rfl

/-- Helper: on a list of children with pairwise distinct move indices,
`find?` at a member's index returns exactly that member. -/
theorem find?_of_mem_distinct (children : List Child) (c : Child)
    (hdist : children.Pairwise (fun x y => x.mid ≠ y.mid))
    (hc : c ∈ children) :
    children.find? (fun d => d.mid == c.mid) = some c := by
  induction children with
  | nil => cases hc
  | cons d ds ih =>
      rcases List.mem_cons.mp hc with rfl | hc2
      · exact List.find?_cons_of_pos _ (by simp)
      · have hne : d.mid ≠ c.mid := (List.pairwise_cons.mp hdist).1 c hc2
        rw [List.find?_cons_of_neg _ (by simpa using hne)]
        exact ih (List.pairwise_cons.mp hdist).2 hc2

/-- Helper: a child's key is strictly positive when its mean value is at
least -1. -/
theorem key_pos (c : Child) (h : -1 ≤ c.qMean) : 0 < c.key := by
  have h1 : (0 : ℚ) < c.qMean + 3 := by linarith
  have h2 := div_pos h1 (by norm_num : (0 : ℚ) < 8)
  have h3 : (0 : ℚ) ≤ (c.nVisit : ℚ) := Nat.cast_nonneg _
  unfold Child.key
  linarith

/-- Helper: the key ordering refines the visit-count ordering when mean
values lie in [-1, 1]. -/
theorem key_lt_of_visit_lt (c d : Child) (hc : c.qMean ≤ 1)
    (hd : -1 ≤ d.qMean) (h : c.nVisit < d.nVisit) : c.key < d.key := by
  have hcast : (c.nVisit : ℚ) + 1 ≤ (d.nVisit : ℚ) := by exact_mod_cast h
  unfold Child.key
  linarith

/-- Helper: key comparison decodes to the lexicographic comparison on
(visit count, mean value). -/
theorem lex_of_key_le (c d : Child) (hc1 : -1 ≤ c.qMean) (_hc2 : c.qMean ≤ 1)
    (_hd1 : -1 ≤ d.qMean) (hd2 : d.qMean ≤ 1) (h : c.key ≤ d.key) :
    c.nVisit < d.nVisit ∨ (c.nVisit = d.nVisit ∧ c.qMean ≤ d.qMean) := by
  rcases lt_trichotomy c.nVisit d.nVisit with hlt | heq | hgt
  · exact Or.inl hlt
  · refine Or.inr ⟨heq, ?_⟩
    have hcast : (c.nVisit : ℚ) = (d.nVisit : ℚ) := by exact_mod_cast heq
    unfold Child.key at h
    linarith
  · exact absurd h (not_le.mpr (key_lt_of_visit_lt d c hd2 hc1 hgt))

/-- Helper: equal visit counts and mean values give equal keys. -/
theorem key_eq_of_stats_eq (c d : Child) (h1 : c.nVisit = d.nVisit)
    (h2 : c.qMean = d.qMean) : c.key = d.key := by
  unfold Child.key
  rw [h1, h2]

/-- Helper: under the SearchNode invariants, `MCTSAgent::getAction` selects
the move of a root child whose key (hence visit count, then mean value) is
maximal, and among key ties the one with the smallest move index. -/
theorem mcts_getAction_child (a : MCTSAgent) (m : MCTS) (b : Board)
    (hm : a.m_mcts = some m) (hne : m.children ≠ [])
    (hids : ∀ c ∈ m.children, c.mid < WIDTH * HEIGHT)
    (hdist : m.children.Pairwise (fun c d => c.mid ≠ d.mid))
    (hq : ∀ c ∈ m.children, -1 ≤ c.qMean ∧ c.qMean ≤ 1) :
    ∃ c ∈ m.children, a.getAction b = some (Position.ofIdx c.mid) ∧
      maxCoeffIdx (m.evalState b).2 = c.mid ∧
      (∀ d ∈ m.children, d.key ≤ c.key) ∧
      (∀ d ∈ m.children, d.key = c.key → c.mid ≤ d.mid) := by
  have hlen : (m.evalState b).2.length = WIDTH * HEIGHT := evalState_length m b
  have hpne : (m.evalState b).2 ≠ [] := by
    intro h0
    rw [h0] at hlen
    simp [WIDTH, HEIGHT] at hlen
  obtain ⟨hr, hmax, hfirst⟩ := maxCoeffIdx_spec (m.evalState b).2 hpne
  have hchild_val : ∀ c ∈ m.children, (m.evalState b).2.getD c.mid 0 = c.key := by
    intro c hc
    rw [evalState_getD m b c.mid (hids c hc),
      find?_of_mem_distinct m.children c hdist hc]
    rfl
  obtain ⟨c0, hc0⟩ := List.exists_mem_of_ne_nil m.children hne
  have hrlt : maxCoeffIdx (m.evalState b).2 < WIDTH * HEIGHT := hlen ▸ hr
  have hpos : 0 < (m.evalState b).2.getD (maxCoeffIdx (m.evalState b).2) 0 := by
    have h1 := key_pos c0 (hq c0 hc0).1
    have h2 := hmax c0.mid (by rw [hlen]; exact hids c0 hc0)
    rw [hchild_val c0 hc0] at h2
    linarith
  have hrval := evalState_getD m b (maxCoeffIdx (m.evalState b).2) hrlt
  rcases hfind : m.children.find?
      (fun c => c.mid == maxCoeffIdx (m.evalState b).2) with _ | c
  · rw [hfind] at hrval
    rw [hrval] at hpos
    exact absurd hpos (by norm_num)
  · have hcmem : c ∈ m.children := List.mem_of_find?_eq_some hfind
    have hcmid : c.mid = maxCoeffIdx (m.evalState b).2 := by
      have := List.find?_some hfind
      simpa using this
    rw [hfind] at hrval
    have hkeyr : (m.evalState b).2.getD (maxCoeffIdx (m.evalState b).2) 0
        = c.key := hrval
    refine ⟨c, hcmem, ?_, hcmid.symm, ?_, ?_⟩
    · simp [MCTSAgent.getAction, hm, ← hcmid]
    · intro d hd
      have h2 := hmax d.mid (by rw [hlen]; exact hids d hd)
      rw [hchild_val d hd, hkeyr] at h2
      exact h2
    · intro d hd hkey
      by_contra hlt
      push_neg at hlt
      have h5 := hfirst d.mid (hcmid ▸ hlt)
      rw [hchild_val d hd, hkeyr, hkey] at h5
      exact lt_irrefl _ h5

/-- C7: after the budget expires, `MCTSAgent::getAction` returns the move
of the root child with the highest visit count, ties broken first by
highest mean backed-up value and then by the smallest move index (the
first maximal index of the engine's distribution), under the SearchNode
invariants: a non-empty expanded root whose children carry in-grid,
pairwise-distinct moves and mean values in [-1, 1]. -/
theorem C7_best_visit_count_selection (a : MCTSAgent) (m : MCTS) (b : Board)
    (hm : a.m_mcts = some m) (hne : m.children ≠ [])
    (hids : ∀ c ∈ m.children, c.mid < WIDTH * HEIGHT)
    (hdist : m.children.Pairwise (fun c d => c.mid ≠ d.mid))
    (hq : ∀ c ∈ m.children, -1 ≤ c.qMean ∧ c.qMean ≤ 1) :
    ∃ c ∈ m.children, a.getAction b = some (Position.ofIdx c.mid) ∧
      (∀ d ∈ m.children, d.nVisit < c.nVisit ∨
        (d.nVisit = c.nVisit ∧ d.qMean ≤ c.qMean)) ∧
      (∀ d ∈ m.children, d.nVisit = c.nVisit → d.qMean = c.qMean →
        c.mid ≤ d.mid) := by
  obtain ⟨c, hcmem, hget, _hidx, hmaxkey, hmin⟩ :=
    mcts_getAction_child a m b hm hne hids hdist hq
  refine ⟨c, hcmem, hget, ?_, ?_⟩
  · intro d hd
    exact lex_of_key_le d c (hq d hd).1 (hq d hd).2 (hq c hcmem).1
      (hq c hcmem).2 (hmaxkey d hd)
  · intro d hd h1 h2
    exact hmin d hd (key_eq_of_stats_eq d c h1 h2)

/-- Witness for C7: a root with a visit-count tie resolved by mean value
and a further full tie resolved by the smaller move index. -/
theorem C7_witness :
    ∃ c ∈ (⟨100, 0, 3, ⟨-1⟩, 1,
        [⟨20, 3, 0⟩, ⟨10, 3, 0⟩, ⟨7, 2, 1⟩]⟩ : MCTS).children,
      MCTSAgent.getAction
          ⟨100, 0, some ⟨100, 0, 3, ⟨-1⟩, 1,
            [⟨20, 3, 0⟩, ⟨10, 3, 0⟩, ⟨7, 2, 1⟩]⟩⟩ ⟨[⟨5⟩], -1⟩
        = some (Position.ofIdx c.mid) ∧
      (∀ d ∈ (⟨100, 0, 3, ⟨-1⟩, 1,
          [⟨20, 3, 0⟩, ⟨10, 3, 0⟩, ⟨7, 2, 1⟩]⟩ : MCTS).children,
        d.nVisit < c.nVisit ∨ (d.nVisit = c.nVisit ∧ d.qMean ≤ c.qMean)) ∧
      (∀ d ∈ (⟨100, 0, 3, ⟨-1⟩, 1,
          [⟨20, 3, 0⟩, ⟨10, 3, 0⟩, ⟨7, 2, 1⟩]⟩ : MCTS).children,
        d.nVisit = c.nVisit → d.qMean = c.qMean → c.mid ≤ d.mid) :=
  C7_best_visit_count_selection
    ⟨100, 0, some ⟨100, 0, 3, ⟨-1⟩, 1,
      [⟨20, 3, 0⟩, ⟨10, 3, 0⟩, ⟨7, 2, 1⟩]⟩⟩
    ⟨100, 0, 3, ⟨-1⟩, 1, [⟨20, 3, 0⟩, ⟨10, 3, 0⟩, ⟨7, 2, 1⟩]⟩
    ⟨[⟨5⟩], -1⟩ rfl (by decide) (by decide) (by decide) (by decide)

/-- C4 fails as stated: on the empty board (which has legal moves),
`HumanAgent::getAction` fed the revert sentinel {-1, -1} returns a
position outside the grid — the user input is not validated. -/
theorem C4_counterexample :
    Board.hasLegalMove ⟨[], 1⟩ = true ∧
    (HumanAgent.getActionH (-1, -1) ⟨Evaluator.initial, (0, 0), [], false⟩
        ⟨[], 1⟩).1 = Position.mkXY (-1) (-1) ∧
    Board.legalMove ⟨[], 1⟩ (Position.mkXY (-1) (-1)) = false := by
  refine ⟨by decide, rfl, by decide⟩

/-- C4 amended: `RandomAgent::getAction` returns a legal move whenever the
board's random-move query honours its contract, and `MCTSAgent::getAction`
returns the move of some root child — legal whenever the root children's
moves are legal (the SearchNode invariant of spec section 3);
`HumanAgent::getAction`, however, returns the user-entered coordinates
unvalidated, which need not be a legal move. -/
theorem C4_legal_move_selection :
    (∀ (rand : Board → Position) (b : Board),
        (b.hasLegalMove = true → b.legalMove (rand b) = true) →
        b.hasLegalMove = true →
        b.legalMove (RandomAgent.getAction rand b) = true) ∧
    (∀ (input : Int × Int) (ha : HumanAgent) (b : Board),
        (HumanAgent.getActionH input ha b).1
          = Position.mkXY input.1 input.2) ∧
    (∀ (a : MCTSAgent) (m : MCTS) (b : Board),
        a.m_mcts = some m → m.children ≠ [] →
        (∀ c ∈ m.children, c.mid < WIDTH * HEIGHT) →
        m.children.Pairwise (fun c d => c.mid ≠ d.mid) →
        (∀ c ∈ m.children, -1 ≤ c.qMean ∧ c.qMean ≤ 1) →
        (∀ c ∈ m.children, b.legalMove (Position.ofIdx c.mid) = true) →
        ∃ p, a.getAction b = some p ∧ b.legalMove p = true) := by
  refine ⟨fun rand b hc hb => hc hb, fun input ha b => rfl, ?_⟩
  intro a m b hm hne hids hdist hq hleg
  obtain ⟨c, hcmem, hget, -, -, -⟩ :=
    mcts_getAction_child a m b hm hne hids hdist hq
  exact ⟨Position.ofIdx c.mid, hget, hleg c hcmem⟩

/-- Witness for the amended C4 at concrete boards, a concrete random-move
function and a concrete one-child engine. -/
theorem C4_witness :
    Board.legalMove ⟨[], 1⟩
        (RandomAgent.getAction (fun _ => Position.ofIdx 0) ⟨[], 1⟩) = true ∧
    (HumanAgent.getActionH (2, 3) ⟨Evaluator.initial, (0, 0), [], false⟩
        ⟨[], 1⟩).1 = Position.mkXY 2 3 ∧
    ∃ p, MCTSAgent.getAction
        ⟨100, 0, some ⟨100, 0, 3, ⟨-1⟩, 1, [⟨10, 3, 0⟩]⟩⟩ ⟨[⟨5⟩], -1⟩
        = some p ∧ Board.legalMove ⟨[⟨5⟩], -1⟩ p = true :=
  ⟨C4_legal_move_selection.1 (fun _ => Position.ofIdx 0) ⟨[], 1⟩
      (fun _ => by decide) (by decide),
   C4_legal_move_selection.2.1 (2, 3)
      ⟨Evaluator.initial, (0, 0), [], false⟩ ⟨[], 1⟩,
   C4_legal_move_selection.2.2
      ⟨100, 0, some ⟨100, 0, 3, ⟨-1⟩, 1, [⟨10, 3, 0⟩]⟩⟩
      ⟨100, 0, 3, ⟨-1⟩, 1, [⟨10, 3, 0⟩]⟩ ⟨[⟨5⟩], -1⟩ rfl (by decide)
      (by decide) (by decide) (by decide) (by decide)⟩

end Gomoku
